import Mathlib

/-! # A verification model of the spectral-processing engine in `server/dsp.py`

IEEE-754 doubles are modelled as exact rationals.  The transcendental
constants `math.cos`, `math.sin` and `math.pi` have no rational values, so
the embedding takes them as parameters `kcos ksin : ℚ → ℚ` and `kpi : ℚ`;
every theorem below is proved for all interpretations of these parameters,
hence in particular for the real cosine, sine and π (and for the rounded
values the binary64 code actually computes).  Python exceptions are modelled
by explicit error results; an in-place routine whose caller can still
observe a half-mutated buffer after an exception (`fft`) returns the buffer
state together with the error flag. -/

namespace DSP

/-- A float64 buffer (numpy 1-d array), modelled as a list of rationals. -/
abbrev Buf := List ℚ

/-- The pair of in-place buffers `(real, imag)` that `fft` mutates. -/
abbrev FSt := Buf × Buf

/-- Outcome of running a mutating routine: `ok s` is a normal return with
final buffer state `s`; `err s` is a raised exception (IndexError /
ValueError), with `s` the state of the caller's buffers at the moment the
exception was raised. -/
inductive ERes (σ : Type) where
  | ok : σ → ERes σ
  | err : σ → ERes σ
deriving DecidableEq

/-- The buffer state carried by a result, whether or not an exception
was raised. -/
def ERes.val {σ : Type} : ERes σ → σ
  | .ok s => s
  | .err s => s

/-- `True` exactly for a normal (exception-free) return. -/
def ERes.isOk {σ : Type} : ERes σ → Bool
  | .ok _ => true
  | .err _ => false

/-- `bit_reverse(x, bits)` from dsp.py: `r = 0; for i in range(bits):
r = (r << 1) | ((x >> i) & 1)`. -/
def bit_reverse (x bits : ℕ) : ℕ :=
  (List.range bits).foldl (fun r i => (r <<< 1) ||| ((x >>> i) &&& 1)) 0

/-- The bit-reversal pass of `fft` for one index `i`:
`j = bit_reverse(i, bits); if j > i: swap real[i]↔real[j], imag[i]↔imag[j]`.
The tuple swap reads both cells and then writes index `i`, then index `j`. -/
def swapStep (bits i : ℕ) (s : FSt) : ERes FSt :=
  let j := bit_reverse i bits
  if j > i then
    match s.1[j]?, s.1[i]?, s.2[j]?, s.2[i]? with
    | some rj, some ri, some ij, some ii =>
        .ok ((s.1.set i rj).set j ri, (s.2.set i ij).set j ii)
    | _, _, _, _ => .err s
  else .ok s

/-- The bit-reversal permutation loop `for i in range(n)` of `fft`. -/
def permLoop (bits : ℕ) : List ℕ → FSt → ERes FSt
  | [], s => .ok s
  | i :: is, s =>
    match swapStep bits i s with
    | .ok s1 => permLoop bits is s1
    | .err s1 => .err s1

/-- One butterfly of `fft` at first index `a` (the loop body for `j`, with
`a = i0 + j` and `b = a + half`): complex-multiply cell `b` by the running
twiddle `w`, combine with cell `a`, then advance the twiddle by the stage
multiplier `wmul`.  Reading an index beyond the buffer raises IndexError
(numpy), leaving all earlier writes visible to the caller.  `real[a] += xr`
reads the value stored before the write to index `b`, which is a distinct
cell because `half ≥ 1` at every call site. -/
def bfStep (wmul : ℚ × ℚ) (half a : ℕ) (w : ℚ × ℚ) (s : FSt) :
    ERes ((ℚ × ℚ) × FSt) :=
  let b := a + half
  match s.1[b]?, s.2[b]? with
  | some rb, some ib =>
    let xr := rb * w.1 - ib * w.2
    let xi := rb * w.2 + ib * w.1
    match s.1[a]?, s.2[a]? with
    | some ra, some ia =>
      let re1 := (s.1.set b (ra - xr)).set a (ra + xr)
      let im1 := (s.2.set b (ia - xi)).set a (ia + xi)
      let w1 := (w.1 * wmul.1 - w.2 * wmul.2, w.1 * wmul.2 + w.2 * wmul.1)
      .ok (w1, (re1, im1))
    | _, _ => .err (w, s)
  | _, _ => .err (w, s)

/-- The inner butterfly loop `for j in range(half)` of one block, threading
the running twiddle, which starts at `1 + 0j`. -/
def bfLoop (wmul : ℚ × ℚ) (i0 half : ℕ) : List ℕ → (ℚ × ℚ) → FSt → ERes FSt
  | [], _, s => .ok s
  | j :: js, w, s =>
    match bfStep wmul half (i0 + j) w s with
    | .ok ws => bfLoop wmul i0 half js ws.1 ws.2
    | .err ws => .err ws.2

/-- The block starts visited by `i0 = 0; while i0 < n: ...; i0 += size`:
exactly the multiples of `size` below `n` (`size ≥ 2` at every call). -/
def blockStarts (n size : ℕ) : List ℕ :=
  (List.range ((n + size - 1) / size)).map (· * size)

/-- The middle loop of a stage: one butterfly block per block start, each
with its twiddle reset to `(1, 0)`. -/
def blockLoop (wmul : ℚ × ℚ) (half : ℕ) : List ℕ → FSt → ERes FSt
  | [], s => .ok s
  | i0 :: rest, s =>
    match bfLoop wmul i0 half (List.range half) (1, 0) s with
    | .ok s1 => blockLoop wmul half rest s1
    | .err s1 => .err s1

/-- One stage of `fft` at block size `size`: `half = size >> 1`,
`theta = -2π/size`, stage twiddle multiplier `(cos θ, sin θ)`. -/
def stageStep (kcos ksin : ℚ → ℚ) (kpi : ℚ) (n size : ℕ) (s : FSt) :
    ERes FSt :=
  let half := size / 2
  let theta : ℚ := -2 * kpi / (size : ℚ)
  let wmul := (kcos theta, ksin theta)
  blockLoop wmul half (blockStarts n size) s

/-- The sizes visited by `size = 2; while size <= n: ...; size <<= 1`:
exactly `2^1, …, 2^⌊log₂ n⌋`. -/
def stageSizes (n : ℕ) : List ℕ :=
  (List.range (Nat.log2 n)).map (fun k => 2 ^ (k + 1))

/-- The outer stage loop of `fft`. -/
def stageLoop (kcos ksin : ℚ → ℚ) (kpi : ℚ) (n : ℕ) :
    List ℕ → FSt → ERes FSt
  | [], s => .ok s
  | size :: rest, s =>
    match stageStep kcos ksin kpi n size s with
    | .ok s1 => stageLoop kcos ksin kpi n rest s1
    | .err s1 => .err s1

/-- `fft(real, imag)` from dsp.py: in-place iterative radix-2 transform.
`n = real.shape[0]`; `bits = int(log2(n))` — modelled by `Nat.log2`, which
agrees with the float computation on every power of two (and `math.log2(0)`
raises ValueError before anything runs, the `n = 0` branch).  The function
performs no validation of `n`: the permutation and the butterfly stages run
directly on the caller's buffers. -/
def fft (kcos ksin : ℚ → ℚ) (kpi : ℚ) (re im : Buf) : ERes FSt :=
  let n := re.length
  if n = 0 then .err (re, im)
  else
    match permLoop (Nat.log2 n) (List.range n) (re, im) with
    | .err s => .err s
    | .ok s => stageLoop kcos ksin kpi n (stageSizes n) s

/-- `ifft(real, imag)` from dsp.py: conjugate, forward transform, then scale
(`real /= n`, `imag *= -1.0/n`). -/
def ifft (kcos ksin : ℚ → ℚ) (kpi : ℚ) (re im : Buf) : ERes FSt :=
  let n := re.length
  let im1 := im.map (fun x => x * (-1))
  match fft kcos ksin kpi re im1 with
  | .ok s => .ok (s.1.map (fun x => x / (n : ℚ)),
                  s.2.map (fun x => x * (-1 / (n : ℚ))))
  | .err s => .err s

/-- `hann(N)` from dsp.py: `0.5 * (1 - cos(2π·n/(N-1)))` for `n = 0,…,N-1`.
In a field `(N:ℚ) - 1 = 0` makes the quotient `0` at `N = 1`, whereas the
numpy code produces `0.0/0.0 = NaN` there; `hannIEEE` below tracks that
abnormal case, which this field-valued model cannot express.  All users in
this file apply `hann` with `N ≠ 1` wherever value-level facts are claimed. -/
def hann (kcos : ℚ → ℚ) (kpi : ℚ) (N : ℕ) : Buf :=
  (List.range N).map (fun n : ℕ =>
    1 / 2 * (1 - kcos (2 * kpi * (n : ℚ) / ((N : ℚ) - 1))))

/-- Refinement of `hann` that tracks the IEEE abnormal values: an entry is
`none` when its cosine argument was produced by a division with zero
denominator (`0.0/0.0 = NaN` for `N = 1`, and NaN propagates through `cos`
and the surrounding arithmetic), and `some v` the normal value otherwise. -/
def hannIEEE (kcos : ℚ → ℚ) (kpi : ℚ) (N : ℕ) : List (Option ℚ) :=
  (List.range N).map (fun n : ℕ =>
    if ((N : ℚ) - 1) = 0 then none
    else some (1 / 2 * (1 - kcos (2 * kpi * (n : ℚ) / ((N : ℚ) - 1)))))

/-- The loop `p = 1; while p < n: p <<= 1` of `next_pow2`, with the loop
invariant `0 < p` carried as an argument so that Lean's termination checker
certifies what the claim asserts: the loop terminates for every integer
input. -/
def np2go (n p : ℤ) (hp : 0 < p) : ℤ :=
  if h : p < n then np2go n (2 * p) (by linarith) else p
termination_by (n - p).toNat
decreasing_by
  have h1 : n - 2 * p < n - p := by linarith
  have h2 : (0 : ℤ) < n - p := by linarith
  exact (Int.toNat_lt_toNat h2).mpr h1

/-- `next_pow2(n)` from dsp.py, on Python's unbounded signed integers. -/
def next_pow2 (n : ℤ) : ℤ := np2go n 1 one_pos

/-- The STFT bundle returned by `stft`: the dict
`{"frames": …, "reals": …, "imags": …, "N": N, "hop": hop}`, with the frame
arrays held by value. -/
structure Bundle where
  frames : List ℕ
  reals : List Buf
  imags : List Buf
  N : ℕ
  hop : ℕ
deriving DecidableEq

/-- The analysis loop `while start + N <= length` of `stft`.  Iteration is
bounded by explicit fuel; `signal.length + 1` suffices for every `hop ≥ 1`
(with `hop = 0` and `N ≤ length` the Python loop never terminates, and no
claim concerns that case).  Each frame takes `signal[start:start+N] * w`
as the real buffer, a fresh zero imaginary buffer, and runs `fft`; an
exception from `fft` propagates (it never fires, since `N` is a power of
two — see `stft_spec`). -/
def stftLoop (kcos ksin : ℚ → ℚ) (kpi : ℚ) (signal w : Buf) (N hop : ℕ) :
    ℕ → ℕ → List ℕ → List Buf → List Buf → Except String Bundle
  | 0, _, _, _, _ => .error "loop did not terminate"
  | fuel + 1, start, fr, rs, ims =>
    if start + N ≤ signal.length then
      let re := List.zipWith (fun x y => x * y) ((signal.drop start).take N) w
      let im : Buf := List.replicate N 0
      match fft kcos ksin kpi re im with
      | .err _ => .error "IndexError"
      | .ok s =>
          stftLoop kcos ksin kpi signal w N hop fuel (start + hop)
            (fr ++ [start]) (rs ++ [s.1]) (ims ++ [s.2])
    else
      .ok ⟨fr, rs, ims, N, hop⟩

/-- `stft(signal, win, hop)` from dsp.py: `N = next_pow2(win)`, Hann window
of length `N`, then the analysis loop starting at `start = 0`. -/
def stft (kcos ksin : ℚ → ℚ) (kpi : ℚ) (signal : Buf) (win hop : ℕ) :
    Except String Bundle :=
  let N : ℕ := (next_pow2 (win : ℤ)).toNat
  let w := hann kcos kpi N
  stftLoop kcos ksin kpi signal w N hop (signal.length + 1) 0 [] [] []

/-- The start offsets the analysis loop of `stft` emits when entered at
`start`: the indices `start, start + hop, start + 2·hop, …` with
`s + N ≤ L` (used to state `stft_spec`). -/
def frameStarts (L N hop start : ℕ) : List ℕ :=
  (List.range (if L < start + N then 0 else (L - start - N) / hop + 1)).map
    (fun q => start + q * hop)

/-- The spectral frame `stft` computes at start offset `s` (used to state
`stft_spec`): the in-place FFT result on the Hann-windowed slice
`signal[s:s+N] * hann(N)` and a zero-initialised imaginary buffer. -/
def stftFrameAt (kcos ksin : ℚ → ℚ) (kpi : ℚ) (signal : Buf) (N s : ℕ) :
    FSt :=
  (fft kcos ksin kpi
    (List.zipWith (fun x y => x * y) ((signal.drop s).take N)
      (hann kcos kpi N))
    (List.replicate N 0)).val

/-- The heap of float arrays: `istft`'s no-mutation guarantee is about
array identity, so the bundle it consumes holds references (indices) into
this store rather than values. -/
abbrev Store := List Buf

/-- The STFT bundle as consumed by `istft`: the per-frame `reals`/`imags`
entries are references into a `Store`.  `istft` reads only `reals`,
`imags`, `N` and `hop`; `frames` is carried along unread, as in the dict. -/
structure StftRefs where
  frames : List ℕ
  reals : List ℕ
  imags : List ℕ
  N : ℕ
  hop : ℕ
deriving DecidableEq

/-- A modifier `modifier(re, im, N)`: it receives the current contents of
the two arrays it is handed and its writes replace those contents in
place (the caller stores the returned pair back through the references it
passed).  This covers every closure that mutates its arguments. -/
abbrev Modifier := Buf → Buf → ℕ → Buf × Buf

/-- Python slice `xs[:n]` for an `n` of either sign: a negative `n` counts
from the end of the list. -/
def pyTake (xs : Buf) (n : ℤ) : Buf :=
  if 0 ≤ n then xs.take n.toNat else xs.take (xs.length - n.natAbs)

/-- Slice accumulation `out[start:start+len(seg)] += seg` (the caller has
checked that the segment fits). -/
def addSlice : Buf → ℕ → Buf → Buf
  | [], _, _ => []
  | xs, _, [] => xs
  | x :: xs, 0, v :: vs => (x + v) :: addSlice xs 0 vs
  | x :: xs, s + 1, vs => x :: addSlice xs s vs

/-- One iteration of the synthesis loop of `istft`, for frame `f`, acting
on `(store, out, norm)`:
`re = np.array(reals[f]); im = np.array(imags[f])` allocate two fresh
arrays on the heap holding copies of the analyzer's data; the optional
modifier then mutates those copies in place, `ifft` runs in place on them,
and the Hann-windowed segment is overlap-added into `out` while the
squared window accumulates into `norm`.  `nlen = end - start` is negative
when a caller-supplied `out_len` ends before this frame starts; numpy then
raises ValueError at `out[start:end] += seg` unless the segment is empty,
and an IndexError from `ifft` propagates. -/
def istftFrame (kcos ksin : ℚ → ℚ) (kpi : ℚ) (mod? : Option Modifier)
    (N hop length : ℕ) (w : Buf) (d : StftRefs) (f : ℕ)
    (acc : Store × Buf × Buf) : Except String (Store × Buf × Buf) :=
  let st := acc.1
  let re0 := st.getD (d.reals.getD f 0) []
  let im0 := st.getD (d.imags.getD f 0) []
  let rRef := st.length
  let iRef := st.length + 1
  let st1 := st ++ [re0, im0]
  let p := match mod? with
           | some m => m re0 im0 N
           | none => (re0, im0)
  let st2 := (st1.set rRef p.1).set iRef p.2
  match ifft kcos ksin kpi p.1 p.2 with
  | .err _ => .error "IndexError"
  | .ok s =>
    let st3 := (st2.set rRef s.1).set iRef s.2
    let start := f * hop
    let endd := min (start + N) length
    let nlen : ℤ := (endd : ℤ) - (start : ℤ)
    let sa := pyTake s.1 nlen
    let sb := pyTake w nlen
    if sa.length ≠ sb.length then .error "ValueError"
    else
      let seg := List.zipWith (fun x y => x * y) sa sb
      if seg.length ≠ endd - start then .error "ValueError"
      else .ok (st3, addSlice acc.2.1 start seg,
                addSlice acc.2.2 start (sb.map (fun x => x * x)))

/-- The synthesis loop `for f in range(len(reals))` of `istft`. -/
def istftLoop (kcos ksin : ℚ → ℚ) (kpi : ℚ) (mod? : Option Modifier)
    (N hop length : ℕ) (w : Buf) (d : StftRefs) :
    List ℕ → Store × Buf × Buf → Except String (Store × Buf × Buf)
  | [], acc => .ok acc
  | f :: fs, acc =>
    match istftFrame kcos ksin kpi mod? N hop length w d f acc with
    | .ok acc1 => istftLoop kcos ksin kpi mod? N hop length w d fs acc1
    | .error e => .error e

/-- The final normalization of `istft`: `out[i] /= norm[i]` wherever
`norm[i] > 1e-12`, elementwise over the two equal-length accumulators. -/
def normalizeOut (out norm : Buf) : Buf :=
  List.zipWith (fun o m => if 1 / 10 ^ 12 < m then o / m else o) out norm

/-- `istft(modifier, stft_data, out_len)` from dsp.py.  The result pairs
the final heap with the returned signal; a raised exception is an
`Except.error` (the heap is then unobservable through `istft`'s return
value, as in Python where the exception propagates). -/
def istft (kcos ksin : ℚ → ℚ) (kpi : ℚ) (mod? : Option Modifier)
    (d : StftRefs) (st : Store) (out_len : Option ℕ) :
    Except String (Store × Buf) :=
  let N := d.N
  let hop := d.hop
  let w := hann kcos kpi N
  let length := match out_len with
                | some l => l
                | none => d.reals.length * hop + N
  let out : Buf := List.replicate length 0
  let norm : Buf := List.replicate length 0
  match istftLoop kcos ksin kpi mod? N hop length w d
      (List.range d.reals.length) (st, out, norm) with
  | .error e => .error e
  | .ok acc => .ok (acc.1, normalizeOut acc.2.1 acc.2.2)

/-- One EQ band `{startHz, widthHz, gain}`. -/
structure EQBand where
  startHz : ℚ
  widthHz : ℚ
  gain : ℚ
deriving DecidableEq

/-- An `EQScheme`: a sample rate and an ordered list of bands. -/
structure EQScheme where
  sample_rate : ℤ
  bands : List EQBand
deriving DecidableEq

/-- Python `int(q)`: truncation toward zero. -/
def pyInt (q : ℚ) : ℤ := q.num.tdiv (q.den : ℤ)

/-- `start_bin = max(0, int(start / bin_hz))` with `bin_hz = sample_rate/N`. -/
def bandStartBin (sr : ℤ) (N : ℕ) (b : EQBand) : ℤ :=
  max 0 (pyInt (b.startHz / ((sr : ℚ) / (N : ℚ))))

/-- `end_bin = min(N >> 1, int((start + width) / bin_hz))`, before the
at-least-one-bin adjustment. -/
def bandEndBin0 (sr : ℤ) (N : ℕ) (b : EQBand) : ℤ :=
  min ((N / 2 : ℕ) : ℤ) (pyInt ((b.startHz + b.widthHz) / ((sr : ℚ) / (N : ℚ))))

/-- The bin indices `range(start_bin, end_bin)` the band's loop visits,
after `if end_bin <= start_bin: end_bin = min(N >> 1, start_bin + 1)`. -/
def bandBins (sr : ℤ) (N : ℕ) (b : EQBand) : List ℕ :=
  let s := bandStartBin sr N b
  let e0 := bandEndBin0 sr N b
  let e := if e0 ≤ s then min ((N / 2 : ℕ) : ℤ) (s + 1) else e0
  (List.range (e - s).toNat).map (fun t => s.toNat + t)

/-- `xs[k] *= g` on one buffer (in range at every call site: `k < N/2` or
`k = N - k'` with `0 < k' < N/2`, against buffers of length `N`). -/
def lmulAt (g : ℚ) (k : ℕ) (xs : Buf) : Buf :=
  xs.set k (xs.getD k 0 * g)

/-- The loop body of the modifier for one bin `k`: scale bin `k` by `g`,
and, unless `k` is the DC or Nyquist bin, also its mirror `N - k`.  This is
applied to the real and the imaginary buffer alike. -/
def scaleIdx (g : ℚ) (N k : ℕ) (xs : Buf) : Buf :=
  if k ≠ 0 ∧ k ≠ N / 2 then lmulAt g (N - k) (lmulAt g k xs)
  else lmulAt g k xs

/-- Application of one band inside the modifier: clamp the gain to `≥ 0`,
skip the band when `widthHz ≤ 0`, otherwise scale every bin the band's
loop visits (the code updates `re[k]`, `im[k]`, `re[N-k]`, `im[N-k]` in
sequence; the two buffers are independent, so this is the same as scaling
each buffer on its own). -/
def applyBand (sr : ℤ) (N : ℕ) (s : Buf × Buf) (b : EQBand) : Buf × Buf :=
  let g := if b.gain < 0 then (0 : ℚ) else b.gain
  if b.widthHz ≤ 0 then s
  else (bandBins sr N b).foldl
    (fun t k => (scaleIdx g N k t.1, scaleIdx g N k t.2)) s

/-- `make_modifier_from_scheme(scheme)` from dsp.py: the returned closure
processes the bands in list order. -/
def make_modifier_from_scheme (sch : EQScheme) : Modifier := fun re im N =>
  sch.bands.foldl (applyBand sch.sample_rate N) (re, im)

/-- `clamp_signal(sig)` from dsp.py: elementwise clip to `[-1, 1]`. -/
def clamp_signal (sig : Buf) : Buf :=
  sig.map (fun x => max (-1) (min 1 x))

/-- Whether the modifier's loop body at bin `k` scales index `i`: directly
(`i = k`), or as the mirror `N - k` when `k` is neither the DC nor the
Nyquist bin. -/
def touches (N k i : ℕ) : Prop :=
  i = k ∨ (k ≠ 0 ∧ k ≠ N / 2 ∧ i = N - k)

instance (N k i : ℕ) : Decidable (touches N k i) := by
  unfold touches; infer_instance

/-- The factor a single band multiplies into index `i` of a length-`N`
frame: its clamped gain if the band's loop scales `i`, and `1` otherwise. -/
def bandScale (sr : ℤ) (N : ℕ) (b : EQBand) (i : ℕ) : ℚ :=
  if b.widthHz ≤ 0 then 1
  else if ∃ k ∈ bandBins sr N b, touches N k i then
    (if b.gain < 0 then 0 else b.gain)
  else 1

/-- The net factor a whole scheme multiplies into index `i`: the product of
the per-band factors, in band order. -/
def totalScale (sch : EQScheme) (N i : ℕ) : ℚ :=
  (sch.bands.map (fun b => bandScale sch.sample_rate N b i)).prod

/-- Conjugate symmetry of a length-`N` frame: `re[N-k] = re[k]` and
`im[N-k] = -im[k]` for every `0 < k < N/2`.  The extra bound `k < N` is
implied by `2 * k < N` and only makes the property decidable. -/
def SymFrame (N : ℕ) (re im : Buf) : Prop :=
  ∀ k, k < N → 0 < k → 2 * k < N →
    re.getD (N - k) 0 = re.getD k 0 ∧ im.getD (N - k) 0 = -im.getD k 0

instance (N : ℕ) (re im : Buf) : Decidable (SymFrame N re im) := by
  unfold SymFrame; infer_instance

/-! ## Supporting lemmas -/

theorem addSlice_length (xs : Buf) (s : ℕ) (vs : Buf) :
    (addSlice xs s vs).length = xs.length := by
  induction xs generalizing s vs with
  | nil => simp [addSlice]
  | cons x xs ih =>
    cases vs with
    | nil => simp [addSlice]
    | cons v vs =>
      cases s with
      | zero => simp [addSlice, ih]
      | succ s => simp [addSlice, ih]

theorem lmulAt_length (g : ℚ) (k : ℕ) (xs : Buf) :
    (lmulAt g k xs).length = xs.length := List.length_set xs k _

theorem lmulAt_get (g : ℚ) (k i : ℕ) (xs : Buf) :
    (lmulAt g k xs)[i]? = if i = k then xs[i]?.map (· * g) else xs[i]? := by
  unfold lmulAt
  rw [List.getElem?_set]
  rcases eq_or_ne k i with rfl | h
  · by_cases hl : k < xs.length
    · simp [hl, List.getElem?_eq_getElem hl, List.getD_eq_getElem xs 0 hl]
    · simp [hl, List.getElem?_eq_none (Nat.le_of_not_lt hl)]
  · simp [h, Ne.symm h]

theorem scaleIdx_length (g : ℚ) (N k : ℕ) (xs : Buf) :
    (scaleIdx g N k xs).length = xs.length := by
  unfold scaleIdx
  split <;> simp [lmulAt_length]

theorem scaleIdx_get (g : ℚ) (N k i : ℕ) (xs : Buf) :
    (scaleIdx g N k xs)[i]? =
      if touches N k i then xs[i]?.map (· * g) else xs[i]? := by
  unfold scaleIdx touches
  by_cases hg : k ≠ 0 ∧ k ≠ N / 2
  · have hkk : N - k ≠ k := by omega
    rw [if_pos hg, lmulAt_get, lmulAt_get]
    by_cases h1 : i = k
    · subst h1
      simp [Ne.symm hkk]
    · by_cases h2 : i = N - k
      · subst h2
        simp [h1, hg.1, hg.2]
      · simp [h1, h2]
  · rw [if_neg hg, lmulAt_get]
    by_cases h1 : i = k
    · simp [h1]
    · simp only [if_neg h1]
      rw [if_neg]
      tauto

/-! ## C10: `next_pow2` -/

/-- C10: `next_pow2` terminates on every integer input — in this model the
loop is the total function `np2go`, whose termination Lean certifies from
the measure `(n - p).toNat` — and for every `n ≤ 1` the loop condition
`p < n` fails at the initial `p = 1`, so the result is `1`. -/
theorem next_pow2_le_one (n : ℤ) (h : n ≤ 1) : next_pow2 n = 1 := by
  rw [next_pow2, np2go]
  simp [show ¬ ((1 : ℤ) < n) by omega]

theorem next_pow2_le_one_witness : next_pow2 (-5) = 1 :=
  next_pow2_le_one (-5) (by decide)

/-! ## C3: `fft` on a non-power-of-two length -/

/-- C3 (the behaviour the code actually has at the claim's failing input):
on buffers of length 3 — not a power of two — `fft` performs no validation;
it runs the first butterfly, mutating `real[0]` and `real[1]`, and only
then raises IndexError when the second block reads index 3.  The caller's
buffers are left half-transformed: `[3, -1, 3]` instead of `[1, 2, 3]`.
(The interpretations of cos/sin/π are irrelevant here: the first butterfly
uses the reset twiddle `1 + 0j`.) -/
theorem fft_non_pow2_mutates_then_raises :
    fft (fun _ => 0) (fun _ => 0) 0 [1, 2, 3] [0, 0, 0] =
        .err ([3, -1, 3], [0, 0, 0]) ∧
      ([(3 : ℚ), -1, 3] ≠ [1, 2, 3]) := by
  constructor
  · norm_num [fft, permLoop, swapStep, bit_reverse, stageLoop, stageSizes,
      stageStep, blockLoop, blockStarts, bfLoop, bfStep, Nat.log2,
      List.range_succ]
  · decide

/-! ## C4: `hann` at `N = 1` -/

/-- C4 (the behaviour the code actually has at the claim's failing input):
`hann` has no special case for `N ≤ 1`.  At `N = 1` the formula's
denominator `N - 1` is zero, numpy evaluates `0.0/0.0 = NaN`, and the
returned window is `[NaN]` — neither a unity sample nor a rejection.  This
holds for every interpretation of cos and π, since NaN propagates. -/
theorem hann_one_is_nan (kcos : ℚ → ℚ) (kpi : ℚ) :
    hannIEEE kcos kpi 1 = [none] := by
  norm_num [hannIEEE, List.range_succ]

/-! ## The modifier: per-bin characterization -/

theorem bandBins_lt_half (sr : ℤ) (N : ℕ) (b : EQBand) :
    ∀ k ∈ bandBins sr N b, k < N / 2 := by
  intro k hk
  unfold bandBins at hk
  simp only [List.mem_map, List.mem_range] at hk
  obtain ⟨t, ht, rfl⟩ := hk
  have hs0 : (0 : ℤ) ≤ bandStartBin sr N b := le_max_left 0 _
  have he0 : bandEndBin0 sr N b ≤ ((N / 2 : ℕ) : ℤ) := min_le_left _ _
  have he : (if bandEndBin0 sr N b ≤ bandStartBin sr N b then
      min ((N / 2 : ℕ) : ℤ) (bandStartBin sr N b + 1)
    else bandEndBin0 sr N b) ≤ ((N / 2 : ℕ) : ℤ) := by
    split
    · exact min_le_left _ _
    · exact he0
  omega

theorem touches_unique (N i k k' : ℕ) (hk : k < N / 2) (hk' : k' < N / 2)
    (h : touches N k i) (h' : touches N k' i) : k = k' := by
  unfold touches at h h'
  omega

theorem bandBins_nodup (sr : ℤ) (N : ℕ) (b : EQBand) :
    (bandBins sr N b).Nodup := by
  unfold bandBins
  exact (List.nodup_range _).map (fun a b h => by omega)

theorem foldScale_pair (g : ℚ) (N : ℕ) (ks : List ℕ) (s : Buf × Buf) :
    ks.foldl (fun t k => (scaleIdx g N k t.1, scaleIdx g N k t.2)) s =
      (ks.foldl (fun ys k => scaleIdx g N k ys) s.1,
       ks.foldl (fun ys k => scaleIdx g N k ys) s.2) := by
  induction ks generalizing s with
  | nil => rfl
  | cons k ks ih => rw [List.foldl_cons, List.foldl_cons, List.foldl_cons, ih]

theorem foldScale_length (g : ℚ) (N : ℕ) (ks : List ℕ) (xs : Buf) :
    (ks.foldl (fun ys k => scaleIdx g N k ys) xs).length = xs.length := by
  induction ks generalizing xs with
  | nil => rfl
  | cons k ks ih => rw [List.foldl_cons, ih, scaleIdx_length]

theorem foldScale_get (g : ℚ) (N i : ℕ) (ks : List ℕ) (xs : Buf)
    (hnd : ks.Nodup)
    (huniq : ∀ k ∈ ks, ∀ k' ∈ ks, touches N k i → touches N k' i → k = k') :
    (ks.foldl (fun ys k => scaleIdx g N k ys) xs)[i]? =
      if ∃ k ∈ ks, touches N k i then xs[i]?.map (· * g) else xs[i]? := by
  induction ks generalizing xs with
  | nil => simp
  | cons k ks ih =>
    rw [List.foldl_cons]
    have hnd' := (List.nodup_cons.mp hnd).2
    have hknm := (List.nodup_cons.mp hnd).1
    have huniq' : ∀ a ∈ ks, ∀ a' ∈ ks, touches N a i → touches N a' i → a = a' :=
      fun a ha a' ha' => huniq a (List.mem_cons_of_mem _ ha) a' (List.mem_cons_of_mem _ ha')
    by_cases ht : touches N k i
    · have hns : ¬ ∃ k' ∈ ks, touches N k' i := by
        rintro ⟨k', hk', ht'⟩
        exact hknm (huniq k (List.mem_cons_self _ _) k'
          (List.mem_cons_of_mem _ hk') ht ht' ▸ hk')
      rw [ih _ hnd' huniq', if_neg hns, scaleIdx_get, if_pos ht,
        if_pos ⟨k, List.mem_cons_self _ _, ht⟩]
    · rw [ih _ hnd' huniq', scaleIdx_get, if_neg ht]
      by_cases he : ∃ k' ∈ ks, touches N k' i
      · obtain ⟨k', hk', ht'⟩ := he
        rw [if_pos ⟨k', hk', ht'⟩,
          if_pos ⟨k', List.mem_cons_of_mem _ hk', ht'⟩]
      · rw [if_neg he, if_neg ?_]
        rintro ⟨k', hk', ht'⟩
        rcases List.mem_cons.mp hk' with rfl | hmem
        · exact ht ht'
        · exact he ⟨k', hmem, ht'⟩

theorem applyBand_eq (sr : ℤ) (N : ℕ) (b : EQBand) (s : Buf × Buf) :
    applyBand sr N s b =
      if b.widthHz ≤ 0 then s
      else (bandBins sr N b).foldl
        (fun t k => (scaleIdx (if b.gain < 0 then 0 else b.gain) N k t.1,
                     scaleIdx (if b.gain < 0 then 0 else b.gain) N k t.2)) s :=
  rfl

theorem applyBand_get (sr : ℤ) (N : ℕ) (b : EQBand) (s : Buf × Buf) (i : ℕ) :
    (applyBand sr N s b).1[i]? = s.1[i]?.map (· * bandScale sr N b i) ∧
      (applyBand sr N s b).2[i]? = s.2[i]?.map (· * bandScale sr N b i) := by
  have hid : ∀ (o : Option ℚ), o.map (· * 1) = o := by
    intro o; cases o <;> simp
  rw [applyBand_eq]
  unfold bandScale
  by_cases hw : b.widthHz ≤ 0
  · simp [if_pos hw, hid]
  · simp only [if_neg hw]
    rw [foldScale_pair]
    have hu : ∀ k ∈ bandBins sr N b, ∀ k' ∈ bandBins sr N b,
        touches N k i → touches N k' i → k = k' :=
      fun k hk k' hk' => touches_unique N i k k'
        (bandBins_lt_half sr N b k hk) (bandBins_lt_half sr N b k' hk')
    constructor <;>
      · rw [foldScale_get _ _ _ _ _ (bandBins_nodup sr N b) hu]
        by_cases he : ∃ k ∈ bandBins sr N b, touches N k i
        · rw [if_pos he, if_pos he]
        · rw [if_neg he, if_neg he, hid]

theorem applyBand_length (sr : ℤ) (N : ℕ) (b : EQBand) (s : Buf × Buf) :
    (applyBand sr N s b).1.length = s.1.length ∧
      (applyBand sr N s b).2.length = s.2.length := by
  rw [applyBand_eq]
  split
  · exact ⟨rfl, rfl⟩
  · rw [foldScale_pair]
    exact ⟨foldScale_length _ _ _ _, foldScale_length _ _ _ _⟩

theorem foldBands_get (sr : ℤ) (N i : ℕ) (bs : List EQBand) (s : Buf × Buf) :
    ((bs.foldl (applyBand sr N) s).1[i]? =
      s.1[i]?.map (· * (bs.map (fun b => bandScale sr N b i)).prod)) ∧
      ((bs.foldl (applyBand sr N) s).2[i]? =
        s.2[i]?.map (· * (bs.map (fun b => bandScale sr N b i)).prod)) := by
  induction bs generalizing s with
  | nil =>
    constructor <;> (simp only [List.foldl_nil, List.map_nil, List.prod_nil]
                     cases h : s.1[i]? <;> cases h2 : s.2[i]? <;> simp)
  | cons b bs ih =>
    rw [List.foldl_cons]
    obtain ⟨ih1, ih2⟩ := ih (applyBand sr N s b)
    obtain ⟨hb1, hb2⟩ := applyBand_get sr N b s i
    constructor
    · rw [ih1, hb1, Option.map_map, List.map_cons, List.prod_cons]
      congr 1
      funext x
      simp only [Function.comp_apply]
      ring
    · rw [ih2, hb2, Option.map_map, List.map_cons, List.prod_cons]
      congr 1
      funext x
      simp only [Function.comp_apply]
      ring

theorem foldBands_length (sr : ℤ) (N : ℕ) (bs : List EQBand) (s : Buf × Buf) :
    ((bs.foldl (applyBand sr N) s).1.length = s.1.length) ∧
      ((bs.foldl (applyBand sr N) s).2.length = s.2.length) := by
  induction bs generalizing s with
  | nil => exact ⟨rfl, rfl⟩
  | cons b bs ih =>
    rw [List.foldl_cons]
    obtain ⟨ih1, ih2⟩ := ih (applyBand sr N s b)
    obtain ⟨hb1, hb2⟩ := applyBand_length sr N b s
    exact ⟨ih1.trans hb1, ih2.trans hb2⟩

theorem make_modifier_get (sch : EQScheme) (re im : Buf) (N i : ℕ) :
    (make_modifier_from_scheme sch re im N).1[i]? =
      re[i]?.map (· * totalScale sch N i) ∧
      (make_modifier_from_scheme sch re im N).2[i]? =
        im[i]?.map (· * totalScale sch N i) :=
  foldBands_get sch.sample_rate N i sch.bands (re, im)

theorem make_modifier_getD_1 (sch : EQScheme) (re im : Buf) (N i : ℕ)
    (h : i < re.length) :
    (make_modifier_from_scheme sch re im N).1.getD i 0 =
      re.getD i 0 * totalScale sch N i := by
  rw [List.getD_eq_getElem?_getD, (make_modifier_get sch re im N i).1,
    List.getElem?_eq_getElem h, List.getD_eq_getElem re 0 h]
  rfl

theorem make_modifier_getD_2 (sch : EQScheme) (re im : Buf) (N i : ℕ)
    (h : i < im.length) :
    (make_modifier_from_scheme sch re im N).2.getD i 0 =
      im.getD i 0 * totalScale sch N i := by
  rw [List.getD_eq_getElem?_getD, (make_modifier_get sch re im N i).2,
    List.getElem?_eq_getElem h, List.getD_eq_getElem im 0 h]
  rfl

/-! ## C5: positive-width bands and the bins they touch -/

theorem bandBins_length_eq (sr : ℤ) (N : ℕ) (b : EQBand) :
    (bandBins sr N b).length =
      ((if bandEndBin0 sr N b ≤ bandStartBin sr N b then
          min ((N / 2 : ℕ) : ℤ) (bandStartBin sr N b + 1)
        else bandEndBin0 sr N b) - bandStartBin sr N b).toNat := by
  unfold bandBins
  rw [List.length_map, List.length_range]

/-- C5 counterexample: the band `{startHz := 100, widthHz := 2, gain := 0}`
has positive width and nonnegative start, yet against `sample_rate = 8`,
`N = 4` (Nyquist bin 2, `bin_hz = 2`) its loop range is empty —
`start_bin = 50`, and the forced `end_bin = min(2, 51) = 2 < start_bin` —
so the modifier touches no bin at all: a frame of ones passes through
unchanged even though the band's gain is 0 and would zero any touched
bin. -/
theorem eq_band_beyond_nyquist_touches_no_bin :
    bandBins 8 4 ⟨100, 2, 0⟩ = [] ∧
      make_modifier_from_scheme ⟨8, [⟨100, 2, 0⟩]⟩ [1, 1, 1, 1] [1, 1, 1, 1] 4 =
        ([1, 1, 1, 1], [1, 1, 1, 1]) ∧
      (0 : ℚ) < 2 ∧ (0 : ℚ) ≤ 100 := by
  have hb : bandBins 8 4 ⟨100, 2, 0⟩ = [] := by
    norm_num [bandBins, bandStartBin, bandEndBin0, pyInt, Int.tdiv]
  refine ⟨hb, ?_, by norm_num, by norm_num⟩
  rw [make_modifier_from_scheme, List.foldl_cons, List.foldl_nil, applyBand_eq]
  norm_num [hb]

/-- C5 as amended: a band with `widthHz > 0` (and `startHz ≥ 0`, positive
sample rate) touches at least one bin *provided its start bin lies below
the Nyquist index `N/2`*; in the forced case `end_bin ≤ start_bin` it
touches exactly one.  (For a band whose start bin is at or beyond `N/2`
the loop range is empty — see the counterexample.) -/
theorem eq_band_touches_a_bin (sr : ℤ) (N : ℕ) (b : EQBand)
    (hsr : 0 < sr) (hw : 0 < b.widthHz) (hs : 0 ≤ b.startHz)
    (hsb : bandStartBin sr N b < ((N / 2 : ℕ) : ℤ)) :
    bandBins sr N b ≠ [] ∧
      (bandEndBin0 sr N b ≤ bandStartBin sr N b →
        (bandBins sr N b).length = 1) := by
  have hs0 : (0 : ℤ) ≤ bandStartBin sr N b := le_max_left 0 _
  have hlen := bandBins_length_eq sr N b
  by_cases hf : bandEndBin0 sr N b ≤ bandStartBin sr N b
  · rw [if_pos hf] at hlen
    have hmin : min ((N / 2 : ℕ) : ℤ) (bandStartBin sr N b + 1) =
        bandStartBin sr N b + 1 := min_eq_right (by omega)
    rw [hmin] at hlen
    have h1 : (bandBins sr N b).length = 1 := by omega
    refine ⟨?_, fun _ => h1⟩
    intro hnil
    rw [hnil] at h1
    simp at h1
  · rw [if_neg hf] at hlen
    have h1 : 0 < (bandBins sr N b).length := by omega
    refine ⟨?_, fun hc => absurd hc hf⟩
    intro hnil
    rw [hnil] at h1
    simp at h1

theorem eq_band_touches_a_bin_witness :
    bandBins 8 4 ⟨2, 1, 5⟩ ≠ [] ∧
      (bandEndBin0 8 4 ⟨2, 1, 5⟩ ≤ bandStartBin 8 4 ⟨2, 1, 5⟩ →
        (bandBins 8 4 ⟨2, 1, 5⟩).length = 1) :=
  eq_band_touches_a_bin 8 4 ⟨2, 1, 5⟩ (by decide) (by norm_num) (by norm_num)
    (by norm_num [bandStartBin, pyInt, Int.tdiv])

/-! ## C7: the modifier preserves conjugate symmetry -/

theorem bandScale_mirror (sr : ℤ) (N : ℕ) (b : EQBand) (k : ℕ)
    (hk0 : 0 < k) (h2k : 2 * k < N) :
    bandScale sr N b (N - k) = bandScale sr N b k := by
  unfold bandScale
  have hiff : (∃ kb ∈ bandBins sr N b, touches N kb (N - k)) ↔
      (∃ kb ∈ bandBins sr N b, touches N kb k) := by
    constructor
    · rintro ⟨kb, hkb, ht⟩
      refine ⟨kb, hkb, ?_⟩
      have := bandBins_lt_half sr N b kb hkb
      unfold touches at *
      omega
    · rintro ⟨kb, hkb, ht⟩
      refine ⟨kb, hkb, ?_⟩
      have := bandBins_lt_half sr N b kb hkb
      unfold touches at *
      omega
  simp only [hiff]

theorem totalScale_mirror (sch : EQScheme) (N k : ℕ)
    (hk0 : 0 < k) (h2k : 2 * k < N) :
    totalScale sch N (N - k) = totalScale sch N k := by
  unfold totalScale
  congr 1
  exact List.map_congr_left fun b _ =>
    bandScale_mirror sch.sample_rate N b k hk0 h2k

/-- C7: the modifier built from any EQ scheme preserves conjugate symmetry.
If a length-`N` frame satisfies `re[N-k] = re[k]` and `im[N-k] = -im[k]`
for all `0 < k < N/2`, so does the frame after the modifier: each mirror
bin `N - k` is multiplied by exactly the factor applied to bin `k`. -/
theorem modifier_preserves_conjugate_symmetry (sch : EQScheme) (re im : Buf)
    (N : ℕ) (hsr : 0 < sch.sample_rate) (hN : 0 < N)
    (hre : re.length = N) (him : im.length = N) (hsym : SymFrame N re im) :
    SymFrame N (make_modifier_from_scheme sch re im N).1
      (make_modifier_from_scheme sch re im N).2 := by
  intro k hkN hk0 h2k
  obtain ⟨hsr1, hsi1⟩ := hsym k hkN hk0 h2k
  have hmlt : N - k < re.length := by omega
  have hklt : k < re.length := by omega
  have hmlt2 : N - k < im.length := by omega
  have hklt2 : k < im.length := by omega
  constructor
  · rw [make_modifier_getD_1 sch re im N (N - k) hmlt,
      make_modifier_getD_1 sch re im N k hklt,
      totalScale_mirror sch N k hk0 h2k, hsr1]
  · rw [make_modifier_getD_2 sch re im N (N - k) hmlt2,
      make_modifier_getD_2 sch re im N k hklt2,
      totalScale_mirror sch N k hk0 h2k, hsi1]
    ring

theorem modifier_preserves_conjugate_symmetry_witness :
    SymFrame 4
      (make_modifier_from_scheme ⟨8, [⟨2, 2, 3⟩]⟩ [1, 2, 3, 2] [0, 1, 0, -1] 4).1
      (make_modifier_from_scheme ⟨8, [⟨2, 2, 3⟩]⟩ [1, 2, 3, 2] [0, 1, 0, -1] 4).2 :=
  modifier_preserves_conjugate_symmetry ⟨8, [⟨2, 2, 3⟩]⟩ [1, 2, 3, 2]
    [0, 1, 0, -1] 4 (by decide) (by decide) (by decide) (by decide) (by decide)

/-! ## C8: band order does not matter -/

/-- C8: the modifier's output is invariant under permuting the scheme's
band list — each bin's final factor is the product of the per-band factors,
and products of rationals are permutation-invariant. -/
theorem modifier_order_invariant (sr : ℤ) (bs1 bs2 : List EQBand)
    (re im : Buf) (N : ℕ) (hsr : 0 < sr) (hN : 0 < N)
    (hperm : bs1.Perm bs2) :
    make_modifier_from_scheme ⟨sr, bs2⟩ re im N =
      make_modifier_from_scheme ⟨sr, bs1⟩ re im N := by
  have hts : ∀ i, totalScale ⟨sr, bs2⟩ N i = totalScale ⟨sr, bs1⟩ N i :=
    fun i => ((hperm.map fun b => bandScale sr N b i).prod_eq).symm
  have h1 : (make_modifier_from_scheme ⟨sr, bs2⟩ re im N).1 =
      (make_modifier_from_scheme ⟨sr, bs1⟩ re im N).1 :=
    List.ext_getElem? fun n => by
      rw [(make_modifier_get ⟨sr, bs2⟩ re im N n).1,
        (make_modifier_get ⟨sr, bs1⟩ re im N n).1, hts n]
  have h2 : (make_modifier_from_scheme ⟨sr, bs2⟩ re im N).2 =
      (make_modifier_from_scheme ⟨sr, bs1⟩ re im N).2 :=
    List.ext_getElem? fun n => by
      rw [(make_modifier_get ⟨sr, bs2⟩ re im N n).2,
        (make_modifier_get ⟨sr, bs1⟩ re im N n).2, hts n]
  exact Prod.ext h1 h2

theorem modifier_order_invariant_witness :
    make_modifier_from_scheme ⟨8, [⟨0, 2, 5⟩, ⟨2, 2, 3⟩]⟩ [1, 1, 1, 1]
        [1, 1, 1, 1] 4 =
      make_modifier_from_scheme ⟨8, [⟨2, 2, 3⟩, ⟨0, 2, 5⟩]⟩ [1, 1, 1, 1]
        [1, 1, 1, 1] 4 :=
  modifier_order_invariant 8 [⟨2, 2, 3⟩, ⟨0, 2, 5⟩] [⟨0, 2, 5⟩, ⟨2, 2, 3⟩]
    [1, 1, 1, 1] [1, 1, 1, 1] 4 (by decide) (by decide)
    (List.Perm.swap (⟨0, 2, 5⟩ : EQBand) (⟨2, 2, 3⟩ : EQBand) [])

/-! ## C2/C9: the synthesis loop of `istft` -/

theorem istftFrame_lengths (kcos ksin : ℚ → ℚ) (kpi : ℚ)
    (mod? : Option Modifier) (N hop length : ℕ) (w : Buf) (d : StftRefs)
    (f : ℕ) (acc acc' : Store × Buf × Buf)
    (h : istftFrame kcos ksin kpi mod? N hop length w d f acc = .ok acc') :
    acc'.2.1.length = acc.2.1.length ∧ acc'.2.2.length = acc.2.2.length := by
  simp only [istftFrame] at h
  split at h
  · simp at h
  · split at h
    · simp at h
    · split at h
      · simp at h
      · cases h
        simp [addSlice_length]

theorem istftFrame_store (kcos ksin : ℚ → ℚ) (kpi : ℚ)
    (mod? : Option Modifier) (N hop length : ℕ) (w : Buf) (d : StftRefs)
    (f : ℕ) (acc acc' : Store × Buf × Buf)
    (h : istftFrame kcos ksin kpi mod? N hop length w d f acc = .ok acc') :
    acc.1.length ≤ acc'.1.length ∧
      ∀ r, r < acc.1.length → acc'.1[r]? = acc.1[r]? := by
  simp only [istftFrame] at h
  split at h
  · simp at h
  · split at h
    · simp at h
    · split at h
      · simp at h
      · cases h
        constructor
        · simp
        · intro r hr
          have h1 : acc.1.length ≠ r := by omega
          have h2 : acc.1.length + 1 ≠ r := by omega
          simp only [List.getElem?_set_ne h2, List.getElem?_set_ne h1]
          rw [List.getElem?_append]
          simp [hr]

theorem istftLoop_invariant (kcos ksin : ℚ → ℚ) (kpi : ℚ)
    (mod? : Option Modifier) (N hop length : ℕ) (w : Buf) (d : StftRefs) :
    ∀ (fs : List ℕ) (acc acc' : Store × Buf × Buf),
      istftLoop kcos ksin kpi mod? N hop length w d fs acc = .ok acc' →
      (acc'.2.1.length = acc.2.1.length ∧ acc'.2.2.length = acc.2.2.length) ∧
        acc.1.length ≤ acc'.1.length ∧
        ∀ r, r < acc.1.length → acc'.1[r]? = acc.1[r]? := by
  intro fs
  induction fs with
  | nil =>
    intro acc acc' h
    simp only [istftLoop] at h
    cases h
    exact ⟨⟨rfl, rfl⟩, le_refl _, fun r _ => rfl⟩
  | cons f fs ih =>
    intro acc acc' h
    simp only [istftLoop] at h
    split at h
    next acc1 heq =>
      obtain ⟨⟨hl1, hl2⟩, hsl, hst⟩ := ih acc1 acc' h
      obtain ⟨hf1, hf2⟩ := istftFrame_lengths kcos ksin kpi mod? N hop length
        w d f acc acc1 heq
      obtain ⟨hg1, hg2⟩ := istftFrame_store kcos ksin kpi mod? N hop length
        w d f acc acc1 heq
      refine ⟨⟨hl1.trans hf1, hl2.trans hf2⟩, hg1.trans hsl, fun r hr => ?_⟩
      rw [hst r (lt_of_lt_of_le hr hg1), hg2 r hr]
    next e heq => simp at h

/-- C2 counterexample: a one-frame bundle with `N = 2`, `hop = 3`.  The
claim (and the spec) say the default output length is
`(number_of_frames - 1)·hop + N = 0·3 + 2 = 2`, but the code computes
`length = len(reals)·hop + N = 1·3 + 2 = 5`: `istft` returns a signal of
length 5. -/
theorem istft_default_len_cex :
    istft (fun _ => 1) (fun _ => 0) 0 none ⟨[0], [0], [1], 2, 3⟩
        [[0, 0], [0, 0]] none =
      .ok ([[0, 0], [0, 0], [0, 0], [0, 0]], [0, 0, 0, 0, 0]) ∧
      (5 : ℕ) ≠ (1 - 1) * 3 + 2 := by
  constructor
  · norm_num [istft, istftLoop, istftFrame, ifft, fft, permLoop, swapStep,
      bit_reverse, stageLoop, stageSizes, stageStep, blockLoop, blockStarts,
      bfLoop, bfStep, Nat.log2, List.range_succ, hann, pyTake, addSlice,
      normalizeOut, List.replicate, Int.toNat]
  · decide

/-- C2 as amended: when `istft` is called without an explicit `out_len`
and returns, the output signal's length is `len(reals)·hop + N` — one hop
more than the last frame's start plus `N`. -/
theorem istft_default_out_len (kcos ksin : ℚ → ℚ) (kpi : ℚ)
    (mod? : Option Modifier) (d : StftRefs) (st : Store) (p : Store × Buf)
    (h : istft kcos ksin kpi mod? d st none = .ok p) :
    p.2.length = d.reals.length * d.hop + d.N := by
  simp only [istft] at h
  split at h
  next e heq => simp at h
  next acc heq =>
    cases h
    obtain ⟨⟨hl1, hl2⟩, -, -⟩ := istftLoop_invariant kcos ksin kpi mod?
      d.N d.hop (d.reals.length * d.hop + d.N) (hann kcos kpi d.N) d
      (List.range d.reals.length) _ _ heq
    simp only [List.length_replicate] at hl1 hl2
    simp [normalizeOut, List.length_zipWith, hl1, hl2]

theorem istft_default_out_len_witness :
    (([[(0 : ℚ), 0], [0, 0], [0, 0], [0, 0]], [0, 0, 0, 0, 0]) :
        Store × Buf).2.length = ([0] : List ℕ).length * 3 + 2 :=
  istft_default_out_len (fun _ => 1) (fun _ => 0) 0 none
    ⟨[0], [0], [1], 2, 3⟩ [[0, 0], [0, 0]] _
    (by norm_num [istft, istftLoop, istftFrame, ifft, fft, permLoop, swapStep,
      bit_reverse, stageLoop, stageSizes, stageStep, blockLoop, blockStarts,
      bfLoop, bfStep, Nat.log2, List.range_succ, hann, pyTake, addSlice,
      normalizeOut, List.replicate, Int.toNat])

/-- C9: `istft` never mutates the arrays stored in the bundle it consumes:
whatever the modifier does to the arrays it is handed, every array the
bundle's references point at is unchanged in the final heap, because each
frame is processed on freshly allocated copies.  (When `istft` raises, the
loop has likewise only written to the copies.) -/
theorem istft_preserves_bundle_arrays (kcos ksin : ℚ → ℚ) (kpi : ℚ)
    (mod? : Option Modifier) (d : StftRefs) (st : Store)
    (out_len : Option ℕ) (p : Store × Buf) (r : ℕ) (hr : r < st.length)
    (h : istft kcos ksin kpi mod? d st out_len = .ok p) :
    p.1[r]? = st[r]? := by
  simp only [istft] at h
  split at h
  next e heq => simp at h
  next acc heq =>
    cases h
    exact ((istftLoop_invariant kcos ksin kpi mod? d.N d.hop _ _ d
      (List.range d.reals.length) _ _ heq).2.2) r hr

theorem istft_preserves_bundle_arrays_witness :
    (([[(0 : ℚ), 0], [0, 0], [0, 0], [0, 0]], [0, 0, 0]) :
        Store × Buf).1[0]? = ([[(0 : ℚ), 0], [0, 0]] : Store)[0]? :=
  istft_preserves_bundle_arrays (fun _ => 1) (fun _ => 0) 0 none
    ⟨[0], [0], [1], 2, 1⟩ [[0, 0], [0, 0]] none _ 0 (by decide)
    (by norm_num [istft, istftLoop, istftFrame, ifft, fft, permLoop, swapStep,
      bit_reverse, stageLoop, stageSizes, stageStep, blockLoop, blockStarts,
      bfLoop, bfStep, Nat.log2, List.range_succ, hann, pyTake, addSlice,
      normalizeOut, List.replicate, Int.toNat])

/-! ## C6: `fft` returns normally on power-of-two lengths -/

theorem bitrev_fold_lt (x : ℕ) (l : List ℕ) :
    ∀ (r m : ℕ), r < 2 ^ m →
      l.foldl (fun r i => (r <<< 1) ||| ((x >>> i) &&& 1)) r <
        2 ^ (m + l.length) := by
  induction l with
  | nil => intro r m hr; simpa using hr
  | cons i l ih =>
    intro r m hr
    rw [List.foldl_cons]
    have h1 : (r <<< 1) ||| ((x >>> i) &&& 1) < 2 ^ (m + 1) := by
      have hb1 : (x >>> i) &&& 1 ≤ 1 := Nat.and_le_right
      have hb2 : (1 : ℕ) < 2 ^ (m + 1) := Nat.one_lt_two_pow (by omega)
      have hs : r <<< 1 < 2 ^ (m + 1) := by
        rw [Nat.shiftLeft_eq]
        have he1 : (2 : ℕ) ^ 1 = 2 := by norm_num
        rw [he1, pow_succ]
        omega
      exact Nat.or_lt_two_pow hs (by omega)
    have h3 : m + (i :: l).length = m + 1 + l.length := by
      simp [List.length_cons]; omega
    rw [h3]
    exact ih _ _ h1

theorem bit_reverse_lt (x bits : ℕ) : bit_reverse x bits < 2 ^ bits := by
  have := bitrev_fold_lt x (List.range bits) 0 0 (by norm_num)
  simpa [bit_reverse] using this

theorem swapStep_ok (bits i n : ℕ) (s : FSt) (h1 : s.1.length = n)
    (h2 : s.2.length = n) (hi : i < n) (hj : bit_reverse i bits < n) :
    ∃ s', swapStep bits i s = .ok s' ∧ s'.1.length = n ∧ s'.2.length = n := by
  simp only [swapStep]
  by_cases hgt : bit_reverse i bits > i
  · simp only [if_pos hgt,
      List.getElem?_eq_getElem (show bit_reverse i bits < s.1.length by omega),
      List.getElem?_eq_getElem (show i < s.1.length by omega),
      List.getElem?_eq_getElem (show bit_reverse i bits < s.2.length by omega),
      List.getElem?_eq_getElem (show i < s.2.length by omega)]
    exact ⟨_, rfl, by simp [h1], by simp [h2]⟩
  · simp only [if_neg hgt]
    exact ⟨s, rfl, h1, h2⟩

theorem permLoop_ok (bits n : ℕ) (l : List ℕ)
    (hl : ∀ i ∈ l, i < n ∧ bit_reverse i bits < n) :
    ∀ s : FSt, s.1.length = n → s.2.length = n →
      ∃ s', permLoop bits l s = .ok s' ∧
        s'.1.length = n ∧ s'.2.length = n := by
  induction l with
  | nil => intro s h1 h2; exact ⟨s, rfl, h1, h2⟩
  | cons i l ih =>
    intro s h1 h2
    obtain ⟨hi, hj⟩ := hl i (List.mem_cons_self _ _)
    obtain ⟨s1, heq, hl1, hl2⟩ := swapStep_ok bits i n s h1 h2 hi hj
    obtain ⟨s', heq', h1', h2'⟩ :=
      ih (fun a ha => hl a (List.mem_cons_of_mem _ ha)) s1 hl1 hl2
    exact ⟨s', by simp only [permLoop, heq, heq'], h1', h2'⟩

theorem bfStep_ok (wmul : ℚ × ℚ) (half a n : ℕ) (w : ℚ × ℚ) (s : FSt)
    (h1 : s.1.length = n) (h2 : s.2.length = n) (hb : a + half < n) :
    ∃ ws : (ℚ × ℚ) × FSt, bfStep wmul half a w s = .ok ws ∧
      ws.2.1.length = n ∧ ws.2.2.length = n := by
  simp only [bfStep,
    List.getElem?_eq_getElem (show a + half < s.1.length by omega),
    List.getElem?_eq_getElem (show a + half < s.2.length by omega),
    List.getElem?_eq_getElem (show a < s.1.length by omega),
    List.getElem?_eq_getElem (show a < s.2.length by omega)]
  exact ⟨_, rfl, by simp [h1], by simp [h2]⟩

theorem bfLoop_ok (wmul : ℚ × ℚ) (i0 half n : ℕ) (js : List ℕ)
    (hjs : ∀ j ∈ js, i0 + j + half < n) :
    ∀ (w : ℚ × ℚ) (s : FSt), s.1.length = n → s.2.length = n →
      ∃ s', bfLoop wmul i0 half js w s = .ok s' ∧
        s'.1.length = n ∧ s'.2.length = n := by
  induction js with
  | nil => intro w s h1 h2; exact ⟨s, rfl, h1, h2⟩
  | cons j js ih =>
    intro w s h1 h2
    obtain ⟨ws, heq, hw1, hw2⟩ := bfStep_ok wmul half (i0 + j) n w s h1 h2
      (by have := hjs j (List.mem_cons_self _ _); omega)
    obtain ⟨s', heq', h1', h2'⟩ :=
      ih (fun a ha => hjs a (List.mem_cons_of_mem _ ha)) ws.1 ws.2 hw1 hw2
    exact ⟨s', by simp only [bfLoop, heq, heq'], h1', h2'⟩

theorem blockLoop_ok (wmul : ℚ × ℚ) (half n : ℕ) (l : List ℕ)
    (hl : ∀ i0 ∈ l, i0 + half + half ≤ n) :
    ∀ s : FSt, s.1.length = n → s.2.length = n →
      ∃ s', blockLoop wmul half l s = .ok s' ∧
        s'.1.length = n ∧ s'.2.length = n := by
  induction l with
  | nil => intro s h1 h2; exact ⟨s, rfl, h1, h2⟩
  | cons i0 l ih =>
    intro s h1 h2
    obtain ⟨s1, heq, hl1, hl2⟩ := bfLoop_ok wmul i0 half n (List.range half)
      (fun j hj => by
        have hj' := List.mem_range.mp hj
        have := hl i0 (List.mem_cons_self _ _)
        omega) (1, 0) s h1 h2
    obtain ⟨s', heq', h1', h2'⟩ :=
      ih (fun a ha => hl a (List.mem_cons_of_mem _ ha)) s1 hl1 hl2
    exact ⟨s', by simp only [blockLoop, heq, heq'], h1', h2'⟩

theorem stageStep_ok (kcos ksin : ℚ → ℚ) (kpi : ℚ) (n size : ℕ)
    (hpos : 0 < size) (heven : size % 2 = 0) (hdvd : size ∣ n) :
    ∀ s : FSt, s.1.length = n → s.2.length = n →
      ∃ s', stageStep kcos ksin kpi n size s = .ok s' ∧
        s'.1.length = n ∧ s'.2.length = n := by
  intro s h1 h2
  obtain ⟨m, hm⟩ := hdvd
  have hcount : (n + size - 1) / size = m := by
    rw [hm, show size * m + size - 1 = size * m + (size - 1) by omega,
      Nat.mul_add_div hpos, Nat.div_eq_of_lt (by omega)]
    omega
  have hl : ∀ i0 ∈ blockStarts n size, i0 + size / 2 + size / 2 ≤ n := by
    intro i0 hi0
    unfold blockStarts at hi0
    simp only [List.mem_map, List.mem_range] at hi0
    obtain ⟨q, hq, rfl⟩ := hi0
    rw [hcount] at hq
    have hle : q * size + size ≤ size * m := by
      calc q * size + size = (q + 1) * size := by ring
      _ ≤ m * size := Nat.mul_le_mul_right _ (Nat.succ_le_of_lt hq)
      _ = size * m := Nat.mul_comm _ _
    omega
  obtain ⟨s', heq, h1', h2'⟩ := blockLoop_ok
    (kcos (-2 * kpi / (size : ℚ)), ksin (-2 * kpi / (size : ℚ)))
    (size / 2) n (blockStarts n size) hl s h1 h2
  exact ⟨s', by simp only [stageStep]; exact heq, h1', h2'⟩

theorem stageLoop_ok (kcos ksin : ℚ → ℚ) (kpi : ℚ) (n : ℕ) (l : List ℕ)
    (hl : ∀ size ∈ l, 0 < size ∧ size % 2 = 0 ∧ size ∣ n) :
    ∀ s : FSt, s.1.length = n → s.2.length = n →
      ∃ s', stageLoop kcos ksin kpi n l s = .ok s' ∧
        s'.1.length = n ∧ s'.2.length = n := by
  induction l with
  | nil => intro s h1 h2; exact ⟨s, rfl, h1, h2⟩
  | cons size l ih =>
    intro s h1 h2
    obtain ⟨hp, he, hd⟩ := hl size (List.mem_cons_self _ _)
    obtain ⟨s1, heq, hl1, hl2⟩ := stageStep_ok kcos ksin kpi n size hp he hd s h1 h2
    obtain ⟨s', heq', h1', h2'⟩ :=
      ih (fun a ha => hl a (List.mem_cons_of_mem _ ha)) s1 hl1 hl2
    exact ⟨s', by simp only [stageLoop, heq, heq'], h1', h2'⟩

theorem fft_ok (kcos ksin : ℚ → ℚ) (kpi : ℚ) (m : ℕ) (re im : Buf)
    (hre : re.length = 2 ^ m) (him : im.length = 2 ^ m) :
    ∃ s, fft kcos ksin kpi re im = .ok s ∧
      s.1.length = 2 ^ m ∧ s.2.length = 2 ^ m := by
  have hn0 : ¬ re.length = 0 := by rw [hre]; positivity
  obtain ⟨s1, heq1, hl1, hl2⟩ := permLoop_ok (Nat.log2 re.length) (2 ^ m)
    (List.range re.length)
    (fun i hi => by
      constructor
      · have := List.mem_range.mp hi; omega
      · have h := bit_reverse_lt i (Nat.log2 re.length)
        have h2 : 2 ^ Nat.log2 re.length = 2 ^ m := by
          rw [hre, Nat.log2_two_pow]
        omega) (re, im) hre him
  have hsz : ∀ size ∈ stageSizes re.length,
      0 < size ∧ size % 2 = 0 ∧ size ∣ re.length := by
    intro size hs
    unfold stageSizes at hs
    simp only [List.mem_map, List.mem_range] at hs
    obtain ⟨k, hk, rfl⟩ := hs
    rw [hre, Nat.log2_two_pow] at hk
    refine ⟨by positivity, ?_, ?_⟩
    · rw [pow_succ]; omega
    · rw [hre]; exact pow_dvd_pow 2 (by omega)
  obtain ⟨s', heq2, h1', h2'⟩ := stageLoop_ok kcos ksin kpi re.length
    (stageSizes re.length) hsz s1 (by rw [hl1, hre]) (by rw [hl2, hre])
  refine ⟨s', ?_, by rw [h1', hre], by rw [h2', hre]⟩
  simp only [fft, if_neg hn0]
  rw [heq1]
  exact heq2

theorem np2go_pow (n : ℤ) : ∀ (fuel : ℕ) (p : ℤ) (hp : 0 < p) (k : ℕ),
    (n - p).toNat ≤ fuel → p = 2 ^ k → ∃ k', np2go n p hp = 2 ^ k' := by
  intro fuel
  induction fuel with
  | zero =>
    intro p hp k hf hpk
    rw [np2go, dif_neg (by omega)]
    exact ⟨k, hpk⟩
  | succ f ih =>
    intro p hp k hf hpk
    rw [np2go]
    by_cases h : p < n
    · rw [dif_pos h]
      exact ih (2 * p) (by omega) (k + 1) (by omega) (by rw [hpk]; ring)
    · rw [dif_neg h]
      exact ⟨k, hpk⟩

theorem next_pow2_is_pow (n : ℤ) : ∃ k : ℕ, next_pow2 n = 2 ^ k :=
  np2go_pow n (n - 1).toNat 1 one_pos 0 (le_refl _) (by norm_num)

theorem next_pow2_toNat_pow (win : ℕ) :
    ∃ k : ℕ, (next_pow2 (win : ℤ)).toNat = 2 ^ k := by
  obtain ⟨k, hk⟩ := next_pow2_is_pow (win : ℤ)
  refine ⟨k, ?_⟩
  rw [hk, show ((2 : ℤ) ^ k) = ((2 ^ k : ℕ) : ℤ) by push_cast; ring,
    Int.toNat_natCast]

theorem hann_length (kcos : ℚ → ℚ) (kpi : ℚ) (N : ℕ) :
    (hann kcos kpi N).length = N := by
  unfold hann
  rw [List.length_map, List.length_range]

theorem frameStarts_nil (L N hop start : ℕ) (h : L < start + N) :
    frameStarts L N hop start = [] := by
  unfold frameStarts
  rw [if_pos h]
  rfl

theorem frameStarts_cons (L N hop start : ℕ) (hhop : 0 < hop)
    (h : start + N ≤ L) :
    frameStarts L N hop start = start :: frameStarts L N hop (start + hop) := by
  unfold frameStarts
  rw [if_neg (by omega)]
  by_cases h2 : start + hop + N ≤ L
  · rw [if_neg (by omega)]
    have hd : (L - start - N) / hop = (L - (start + hop) - N) / hop + 1 := by
      rw [show L - start - N = (L - (start + hop) - N) + hop by omega,
        Nat.add_div_right _ hhop]
    rw [hd, List.range_succ_eq_map, List.map_cons, List.map_map]
    congr 1
    · simp
    · refine List.map_congr_left fun q _ => ?_
      simp only [Function.comp_apply, Nat.succ_eq_add_one]
      ring
  · rw [if_pos (by omega)]
    have h0 : (L - start - N) / hop = 0 := Nat.div_eq_of_lt (by omega)
    rw [h0]
    simp [List.range_succ]

theorem stftLoop_spec (kcos ksin : ℚ → ℚ) (kpi : ℚ) (signal : Buf)
    (N hop m : ℕ) (hhop : 0 < hop) (hN : N = 2 ^ m) :
    ∀ (fuel start : ℕ), signal.length + 1 ≤ fuel + start → 0 < fuel →
    ∀ (fr : List ℕ) (rs ims : List Buf),
    stftLoop kcos ksin kpi signal (hann kcos kpi N) N hop fuel start fr rs ims =
      .ok ⟨fr ++ frameStarts signal.length N hop start,
           rs ++ (frameStarts signal.length N hop start).map
             (fun s => (stftFrameAt kcos ksin kpi signal N s).1),
           ims ++ (frameStarts signal.length N hop start).map
             (fun s => (stftFrameAt kcos ksin kpi signal N s).2),
           N, hop⟩ := by
  have hN1 : 0 < N := by rw [hN]; positivity
  intro fuel
  induction fuel with
  | zero => intro start h hf; omega
  | succ f ih =>
    intro start h hf fr rs ims
    by_cases hc : start + N ≤ signal.length
    · have hrelen : (List.zipWith (fun x y => x * y)
          ((signal.drop start).take N) (hann kcos kpi N)).length = N := by
        simp only [List.length_zipWith, List.length_take, List.length_drop,
          hann_length]
        omega
      obtain ⟨s, heq, hs1, hs2⟩ := fft_ok kcos ksin kpi m _ (List.replicate N 0)
        (by rw [hrelen]; exact hN) (by simp [hN])
      have hval : stftFrameAt kcos ksin kpi signal N start = s := by
        unfold stftFrameAt
        rw [heq]
        rfl
      simp only [stftLoop, if_pos hc, heq]
      rw [ih (start + hop) (by omega) (by omega) (fr ++ [start]) (rs ++ [s.1])
          (ims ++ [s.2]),
        frameStarts_cons _ _ _ _ hhop hc]
      simp [hval, List.append_assoc]
    · simp only [stftLoop, if_neg hc]
      rw [frameStarts_nil _ _ _ _ (by omega)]
      simp

/-- C6: `stft` emits exactly the frames whose start offsets are
`0, hop, 2·hop, …` with `s + N ≤ L` — `⌊(L-N)/hop⌋ + 1` of them when
`L ≥ N` and none when `L < N`, a trailing partial window being dropped —
and each emitted frame is the in-place FFT of the Hann-windowed slice
`signal[s:s+N]` with a zero-initialised imaginary buffer, where
`N = next_pow2(win)`.  In particular `stft` returns normally: every frame
buffer has the power-of-two length `N`, on which `fft` never raises. -/
theorem stft_spec (kcos ksin : ℚ → ℚ) (kpi : ℚ) (signal : Buf)
    (win hop N nf : ℕ) (starts : List ℕ) (hhop : 0 < hop)
    (hN : N = (next_pow2 (win : ℤ)).toNat)
    (hnf : nf = if signal.length < N then 0
      else (signal.length - N) / hop + 1)
    (hstarts : starts = (List.range nf).map (· * hop)) :
    stft kcos ksin kpi signal win hop =
      .ok ⟨starts,
           starts.map (fun s => (stftFrameAt kcos ksin kpi signal N s).1),
           starts.map (fun s => (stftFrameAt kcos ksin kpi signal N s).2),
           N, hop⟩ := by
  obtain ⟨m, hm⟩ := next_pow2_toNat_pow win
  have hfs : frameStarts signal.length N hop 0 = starts := by
    subst hstarts hnf
    unfold frameStarts
    simp
  subst hN
  simp only [stft]
  rw [stftLoop_spec kcos ksin kpi signal _ hop m hhop hm (signal.length + 1) 0
    (by omega) (by omega) [] [] [], hfs]
  simp

theorem stft_spec_witness :
    stft (fun _ => 1) (fun _ => 0) 0 [0, 0] 2 1 =
      .ok ⟨[0],
           [0].map (fun s =>
             (stftFrameAt (fun _ => 1) (fun _ => 0) 0 [0, 0] 2 s).1),
           [0].map (fun s =>
             (stftFrameAt (fun _ => 1) (fun _ => 0) 0 [0, 0] 2 s).2),
           2, 1⟩ :=
  stft_spec (fun _ => 1) (fun _ => 0) 0 [0, 0] 2 1 2 1 [0] (by decide)
    (by
      rw [show ((2 : ℕ) : ℤ) = (2 : ℤ) by norm_num, next_pow2, np2go,
        dif_pos (by norm_num), np2go, dif_neg (by norm_num)]
      decide)
    (by norm_num) (by decide)

end DSP
